import Mathlib

/-!
Verification development for the crypto fund weight-estimation system
(`pcc-est-v5`).  The Node/Express layer (`backend/routes/cryptoRoutes.js`,
`backend/scripts/addMoMChange.js`, `backend/scripts/generateEOMData.js`) and
the assembled analysis report (`backend/static/weight_analysis_report.json`)
are embedded shallowly below; numbers are modelled as exact rationals.
Components that live in `backend/scripts/crypto_weight_estimator.py` (absent
from the repository snapshot) are modelled from the specification and marked
as such in their doc comments.
-/

namespace PccEst

/-- Per-asset ensemble weight entry of the report:
`symbol -> (Weight, Lower_CI, Upper_CI)` (`ensemble_weights` in
`weight_analysis_report.json`). -/
structure EnsembleWeight where
  Weight : ℚ
  Lower_CI : ℚ
  Upper_CI : ℚ
  deriving DecidableEq, Repr

/-- The `ensemble_weights` object of the checked-in report
`backend/static/weight_analysis_report.json`, lines 8-29, with the exact
decimal literals that appear in the file. -/
def reportEnsembleWeights : List (String × EnsembleWeight) :=
  [ ("DOT", { Weight := 0.5681859587953194, Lower_CI := 0.0,
              Upper_CI := 6.691674078165353e-8 }),
    ("ETH", { Weight := 0.2177249238631918, Lower_CI := 0.0,
              Upper_CI := 0.7811137503593997 }),
    ("BTC", { Weight := 0.10854456395253664, Lower_CI := 0.21888625000218026,
              Upper_CI := 1.0 }),
    ("SOL", { Weight := 0.10554455338895219, Lower_CI := 0.0,
              Upper_CI := 1.9041244564406074e-8 }) ]

/-- The `model_performance` object of the checked-in report
`backend/static/weight_analysis_report.json`, lines 57-66. -/
def reportModelPerformance : List (String × ℚ) :=
  [ ("OLS_R2", 0.6098519900679429),
    ("Constrained_R2", -1.0),
    ("Ridge_R2", 0.6377265187431941),
    ("Lasso_R2", 0.574279120779637),
    ("ElasticNet_R2", 0.6219906210996928),
    ("RandomForest_R2", 0.9320815973659671),
    ("GradientBoosting_R2", 0.9938609169071597),
    ("Ensemble_R2", -1.0) ]

/-- The `model_importance` object of the checked-in report
`backend/static/weight_analysis_report.json`, lines 67-75. -/
def reportModelImportance : List (String × ℚ) :=
  [ ("OLS", 0.060334979126737694),
    ("Constrained", 0.0),
    ("Ridge", 0.07214550744117176),
    ("Lasso", 0.047442055000999205),
    ("ElasticNet", 0.06528399603988785),
    ("RandomForest", 0.3292206890580385),
    ("GradientBoosting", 0.42557277333316496) ]

/-- The CI-bracket invariant demanded by the specification for a single
`ensemble_weights` entry: `Lower_CI ≤ Weight ≤ Upper_CI`. -/
def ciBrackets (ew : EnsembleWeight) : Prop :=
  ew.Lower_CI ≤ ew.Weight ∧ ew.Weight ≤ ew.Upper_CI

instance : DecidablePred ciBrackets := fun _ =>
  inferInstanceAs (Decidable (_ ∧ _))

/-- Modelled from the spec: the Ensembler's post-processing step
"clip negative blended weights to zero" (the estimator script
`crypto_weight_estimator.py` is not part of the repository snapshot). -/
def clipNegatives (w : List ℚ) : List ℚ :=
  w.map (fun x => max x 0)

/-- Modelled from the spec: "renormalize positives to sum to 1" — divide
every entry by the current total. -/
def renormalize (w : List ℚ) : List ℚ :=
  w.map (fun x => x / w.sum)

/-- Modelled from the spec: the Ensembler's full post-processing policy
(clip negatives to zero, then renormalize to unit sum). -/
def postProcess (w : List ℚ) : List ℚ :=
  renormalize (clipNegatives w)

theorem sum_map_div (l : List ℚ) (s : ℚ) :
    (l.map (fun x => x / s)).sum = l.sum / s := by
  induction l with
  | nil => simp
  | cons a t ih => simp [List.sum_cons, ih, add_div]

theorem clipNegatives_nonneg (w : List ℚ) :
    ∀ x ∈ clipNegatives w, 0 ≤ x := by
  intro x hx
  rcases List.mem_map.mp hx with ⟨a, _, rfl⟩
  exact le_max_right a 0

theorem clipNegatives_sum_pos (w : List ℚ) (h : ∃ x ∈ w, 0 < x) :
    0 < (clipNegatives w).sum := by
  rcases h with ⟨x, hx, hxpos⟩
  induction w with
  | nil => cases hx
  | cons a t ih =>
    rcases List.mem_cons.mp hx with rfl | hmem
    · have ht : 0 ≤ (clipNegatives t).sum :=
        List.sum_nonneg (clipNegatives_nonneg t)
      have ha : 0 < max x 0 := lt_max_iff.mpr (Or.inl hxpos)
      simpa [clipNegatives, List.sum_cons] using add_pos_of_pos_of_nonneg ha ht
    · have ht : 0 < (clipNegatives t).sum := ih hmem
      have ha : 0 ≤ max a 0 := le_max_right a 0
      simpa [clipNegatives, List.sum_cons] using add_pos_of_nonneg_of_pos ha ht

theorem renormalize_sum (w : List ℚ) (h : w.sum ≠ 0) :
    (renormalize w).sum = 1 := by
  simp [renormalize, sum_map_div, div_self h]

theorem sum_pos_of_mem_pos (l : List ℚ) (hnn : ∀ x ∈ l, 0 ≤ x) :
    (∃ x ∈ l, 0 < x) → 0 < l.sum := by
  induction l with
  | nil => rintro ⟨x, hx, _⟩; cases hx
  | cons a t ih =>
    rintro ⟨x, hx, hxpos⟩
    have hat : 0 ≤ a := hnn a (List.mem_cons_self a t)
    have htn : 0 ≤ t.sum :=
      List.sum_nonneg (fun y hy => hnn y (List.mem_cons_of_mem a hy))
    rcases List.mem_cons.mp hx with rfl | hmem
    · simpa [List.sum_cons] using add_pos_of_pos_of_nonneg hxpos htn
    · have ht : 0 < t.sum :=
        ih (fun y hy => hnn y (List.mem_cons_of_mem a hy)) ⟨x, hmem, hxpos⟩
      simpa [List.sum_cons] using add_pos_of_nonneg_of_pos hat ht

/-- C1.  The specification demands `Lower_CI ≤ Weight ≤ Upper_CI` for every
asset of the assembled report's `ensemble_weights`; the checked-in report
violates it: the `DOT` entry has `Weight = 0.5681859587953194` but
`Upper_CI = 6.691674078165353e-8` (and `BTC` has `Lower_CI > Weight`), so the
estimator did not clamp the bootstrap interval to the point estimate. -/
theorem C1_report_violates_ci_bracket :
    ∃ p ∈ reportEnsembleWeights, p.1 = "DOT" ∧ ¬ ciBrackets p.2 := by
  refine ⟨("DOT", { Weight := 0.5681859587953194, Lower_CI := 0.0,
                    Upper_CI := 6.691674078165353e-8 }), ?_, rfl, ?_⟩
  · exact List.mem_cons_self _ _
  · intro hcb
    have h2 := hcb.2
    norm_num at h2

/-- C2.  Modelled from the spec (the Ensembler lives in the absent
`crypto_weight_estimator.py`): after post-processing — clip negative blended
weights to zero, then renormalize the positives — the per-asset weights sum
to 1, in particular to within the claimed `1e-6` tolerance, for every input
holding at least one positive blended weight. -/
theorem C2_postProcess_sum_within_tolerance (w : List ℚ)
    (h : ∃ x ∈ w, 0 < x) :
    |(postProcess w).sum - 1| ≤ 1 / 1000000 := by
  have hpos : 0 < (clipNegatives w).sum := by
    rcases h with ⟨x, hx, hxpos⟩
    refine sum_pos_of_mem_pos _ (clipNegatives_nonneg w) ⟨max x 0, ?_, ?_⟩
    · exact List.mem_map.mpr ⟨x, hx, rfl⟩
    · exact lt_max_iff.mpr (Or.inl hxpos)
  have h1 : (postProcess w).sum = 1 := renormalize_sum _ (ne_of_gt hpos)
  rw [h1]
  norm_num

/-- Concrete instantiation of `C2_postProcess_sum_within_tolerance` at the
blended-weight vector `[-1/2, 3/10, 1/5]`. -/
theorem C2_postProcess_sum_within_tolerance_witness :
    (∃ x ∈ [(-1 : ℚ)/2, 3/10, 1/5], 0 < x) ∧
      |(postProcess [(-1 : ℚ)/2, 3/10, 1/5]).sum - 1| ≤ 1 / 1000000 :=
  ⟨⟨3/10, List.mem_cons_of_mem _ (List.mem_cons_self _ _), by norm_num⟩,
    C2_postProcess_sum_within_tolerance _
      ⟨3/10, List.mem_cons_of_mem _ (List.mem_cons_self _ _), by norm_num⟩⟩

/-- Modelled from the spec: the Ensembler's per-model contribution,
`Contribution(model) = max(0, f(validated R²))` with the minimum-usefulness
floor `validated R² < 0.3 ⇒ contribution 0`; `f` is the unspecified
performance transform. -/
def contribution (f : ℚ → ℚ) (r2 : ℚ) : ℚ :=
  if r2 < 3/10 then 0 else max 0 (f r2)

/-- Modelled from the spec: `model_importance` — contributions normalized to
sum to 1 over the models. -/
def modelImportance (f : ℚ → ℚ) (r2s : List ℚ) : List ℚ :=
  renormalize (r2s.map (contribution f))

theorem contribution_nonneg (f : ℚ → ℚ) (r2 : ℚ) :
    0 ≤ contribution f r2 := by
  unfold contribution
  split
  · exact le_refl 0
  · exact le_max_left 0 (f r2)

/-- C6.  Modelled from the spec (the Ensembler lives in the absent
`crypto_weight_estimator.py`): the `model_importance` values — contributions
floored at zero below the usefulness threshold, then normalized — sum to 1
over the models whenever some model contributes positively. -/
theorem C6_model_importance_sums_to_one (f : ℚ → ℚ) (r2s : List ℚ)
    (h : ∃ r ∈ r2s, 0 < contribution f r) :
    (modelImportance f r2s).sum = 1 := by
  have hpos : 0 < (r2s.map (contribution f)).sum := by
    rcases h with ⟨r, hr, hrpos⟩
    refine sum_pos_of_mem_pos _ ?_ ⟨contribution f r, List.mem_map.mpr ⟨r, hr, rfl⟩, hrpos⟩
    intro x hx
    rcases List.mem_map.mp hx with ⟨r', _, rfl⟩
    exact contribution_nonneg f r'
  exact renormalize_sum _ (ne_of_gt hpos)

/-- Concrete instantiation of `C6_model_importance_sums_to_one` with the
identity performance transform and validated R² values `[9/10, 1/5, 1/2]`
(the middle model falls below the `0.3` usefulness floor). -/
theorem C6_model_importance_sums_to_one_witness :
    (∃ r ∈ [(9 : ℚ)/10, 1/5, 1/2], 0 < contribution id r) ∧
      (modelImportance id [(9 : ℚ)/10, 1/5, 1/2]).sum = 1 :=
  ⟨⟨9/10, List.mem_cons_self _ _, by norm_num [contribution, lt_max_iff]⟩,
    C6_model_importance_sums_to_one id _
      ⟨9/10, List.mem_cons_self _ _, by norm_num [contribution, lt_max_iff]⟩⟩

/-- The checked-in report's `model_importance` values sum to 1 within the
spec's serialization tolerance, in line with `C6_model_importance_sums_to_one`. -/
theorem reportModelImportance_sum_close :
    |((reportModelImportance.map Prod.snd).sum : ℚ) - 1| ≤ 1 / 1000000 := by
  norm_num [reportModelImportance, abs_le]

/-- Whitespace characters matched by the JavaScript regex class `\s`
(restricted to the ASCII range; the report files are ASCII). -/
def isWsChar (c : Char) : Bool :=
  c = ' ' || c = '\t' || c = '\n' || c = '\r' || c = '\x0b' || c = '\x0c'

/-- Drop the leading whitespace of a character list (the greedy `\s*` of the
sanitizing regex; greediness is exact here because `NaN` starts with a
non-whitespace character). -/
def skipWs : List Char → List Char
  | [] => []
  | c :: cs => if isWsChar c then skipWs cs else c :: cs

/-- Attempt to match the regex `:\s*NaN` at the head of the list, returning
the unconsumed suffix on success.  This is the match step of
`reportContent.replace(/:\s*NaN/g, ': null')` in
`backend/routes/cryptoRoutes.js` (lines 101, 216, 336). -/
def tryMatchNaN : List Char → Option (List Char)
  | [] => none
  | c :: rest =>
    if c = ':' then
      match skipWs rest with
      | n :: a :: m :: suffix =>
          if n = 'N' && a = 'a' && m = 'N' then some suffix else none
      | _ => none
    else none

theorem skipWs_length_le (l : List Char) : (skipWs l).length ≤ l.length := by
  induction l with
  | nil => simp [skipWs]
  | cons c cs ih =>
    simp only [skipWs]
    split
    · exact le_trans ih (Nat.le_succ _)
    · exact le_refl _

theorem tryMatchNaN_length (l suf : List Char) (h : tryMatchNaN l = some suf) :
    suf.length < l.length := by
  cases l with
  | nil => simp [tryMatchNaN] at h
  | cons c rest =>
    simp only [tryMatchNaN] at h
    split at h
    · split at h
      · rename_i n a m suffix heq
        split at h
        · injection h with h
          subst h
          have hle := skipWs_length_le rest
          rw [heq] at hle
          simp only [List.length_cons] at hle ⊢
          omega
        · cases h
      · cases h
    · cases h

/-- Fuel-indexed body of the sanitizer; the fuel only bounds recursion depth
and is irrelevant once it reaches the list length
(`replaceNaNAux_fuel_congr`). -/
def replaceNaNAux : Nat → List Char → List Char
  | 0, l => l
  | _ + 1, [] => []
  | fuel + 1, c :: rest =>
    match tryMatchNaN (c :: rest) with
    | some suffix => ':' :: ' ' :: 'n' :: 'u' :: 'l' :: 'l' :: replaceNaNAux fuel suffix
    | none => c :: replaceNaNAux fuel rest

/-- The sanitizer of `backend/routes/cryptoRoutes.js`:
`reportContent.replace(/:\s*NaN/g, ': null')` — scan the report text left to
right, replacing every (non-overlapping) match of `:\s*NaN` with the literal
`: null`; replacement text is emitted, not rescanned, exactly as
`String.prototype.replace` does. -/
def replaceNaN (l : List Char) : List Char :=
  replaceNaNAux l.length l

theorem replaceNaNAux_nil (fuel : Nat) : replaceNaNAux fuel [] = [] := by
  cases fuel <;> rfl

theorem replaceNaNAux_fuel_congr :
    ∀ f1 f2 : Nat, ∀ l : List Char, l.length ≤ f1 → l.length ≤ f2 →
      replaceNaNAux f1 l = replaceNaNAux f2 l := by
  intro f1
  induction f1 with
  | zero =>
    intro f2 l h1 _
    have : l = [] := List.length_eq_zero.mp (Nat.le_zero.mp h1)
    subst this
    rw [replaceNaNAux_nil, replaceNaNAux_nil]
  | succ f1 ih =>
    intro f2 l h1 h2
    cases l with
    | nil => rw [replaceNaNAux_nil, replaceNaNAux_nil]
    | cons c rest =>
      cases f2 with
      | zero => simp at h2
      | succ f2 =>
        simp only [replaceNaNAux]
        rcases htm : tryMatchNaN (c :: rest) with _ | suf <;> simp only [htm]
        · have hr : rest.length ≤ f1 := by
            simp only [List.length_cons] at h1; omega
          have hr2 : rest.length ≤ f2 := by
            simp only [List.length_cons] at h2; omega
          rw [ih f2 rest hr hr2]
        · have hs := tryMatchNaN_length _ _ htm
          simp only [List.length_cons] at hs h1 h2
          rw [ih f2 suf (by omega) (by omega)]

theorem replaceNaN_nil : replaceNaN [] = [] := rfl

theorem replaceNaN_cons (c : Char) (rest : List Char) :
    replaceNaN (c :: rest) =
      match tryMatchNaN (c :: rest) with
      | some suffix => ':' :: ' ' :: 'n' :: 'u' :: 'l' :: 'l' :: replaceNaN suffix
      | none => c :: replaceNaN rest := by
  show replaceNaNAux (rest.length + 1) (c :: rest) = _
  simp only [replaceNaNAux]
  rcases htm : tryMatchNaN (c :: rest) with _ | suf
  · simp only [htm]
    rfl
  · simp only [htm]
    have hs := tryMatchNaN_length _ _ htm
    simp only [List.length_cons] at hs
    rw [replaceNaNAux_fuel_congr rest.length suf.length suf (by omega) (le_refl _)]
    rfl

/-- `true` iff some position of the list still matches the sanitizing regex
`:\s*NaN` — i.e. iff a colon-prefixed `NaN` value survives in the text. -/
def hasNaNPattern : List Char → Bool
  | [] => false
  | c :: rest => (tryMatchNaN (c :: rest)).isSome || hasNaNPattern rest

/-- Head-shape test: the list begins with the three characters `NaN`. -/
def nanHead (l : List Char) : Bool :=
  match l with
  | n :: a :: m :: _ => n = 'N' && a = 'a' && m = 'N'
  | _ => false

/-- Second-level head-shape test: the list begins with `aN`. -/
def anHead (l : List Char) : Bool :=
  match l with
  | a :: m :: _ => a = 'a' && m = 'N'
  | _ => false

theorem tryMatchNaN_unfold_colon (r : List Char) :
    tryMatchNaN (':' :: r) =
      match skipWs r with
      | n :: a :: m :: suffix =>
          if n = 'N' && a = 'a' && m = 'N' then some suffix else none
      | _ => none := by
  simp [tryMatchNaN]

theorem tryMatchNaN_colon_eq_none (r : List Char) :
    tryMatchNaN (':' :: r) = none ↔ nanHead (skipWs r) = false := by
  rw [tryMatchNaN_unfold_colon]
  rcases hsw : skipWs r with _ | ⟨n, _ | ⟨a, _ | ⟨m, suffix⟩⟩⟩
  · simp [nanHead]
  · simp [nanHead]
  · simp [nanHead]
  · by_cases hnam : n = 'N' && a = 'a' && m = 'N' <;> simp [nanHead, hnam]

theorem tryMatchNaN_not_colon (c : Char) (r : List Char) (hc : c ≠ ':') :
    tryMatchNaN (c :: r) = none := by
  simp [tryMatchNaN, hc]

theorem replaceNaN_head_cases (l : List Char) :
    (replaceNaN l).head? = l.head? ∨ (replaceNaN l).head? = some ':' := by
  cases l with
  | nil => left; rw [replaceNaN_nil]
  | cons c rest =>
    rw [replaceNaN_cons]
    rcases htm : tryMatchNaN (c :: rest) with _ | suf
    · left; simp
    · right; simp

theorem anHead_replaceNaN (l : List Char) (h : anHead l = false) :
    anHead (replaceNaN l) = false := by
  cases l with
  | nil => rw [replaceNaN_nil]; simp [anHead]
  | cons c rest =>
    rw [replaceNaN_cons]
    rcases htm : tryMatchNaN (c :: rest) with _ | suf
    · by_cases hca : c = 'a'
      · subst hca
        have hrest : rest.head? ≠ some 'N' := by
          intro hcontra
          cases rest with
          | nil => simp at hcontra
          | cons d r2 =>
            simp only [List.head?] at hcontra
            injection hcontra with hd
            subst hd
            simp [anHead] at h
        rcases replaceNaN_head_cases rest with hh | hh
        · cases hr : (replaceNaN rest) with
          | nil => simp [anHead]
          | cons d r2 =>
            have : some d ≠ some 'N' := by
              rw [hr] at hh
              simp only [List.head?] at hh
              rw [hh]; exact hrest
            have hd : d ≠ 'N' := fun hdd => this (by rw [hdd])
            simp [anHead, hd]
        · cases hr : (replaceNaN rest) with
          | nil => simp [anHead]
          | cons d r2 =>
            rw [hr] at hh
            simp only [List.head?, Option.some.injEq] at hh
            subst hh
            simp [anHead]
      · cases hr : replaceNaN rest with
        | nil => simp [anHead]
        | cons d r2 =>
          cases r2 with
          | nil => simp [anHead, hca]
          | cons e r3 => simp [anHead, hca]
    · simp [anHead]

theorem nanHead_cons_N (x : List Char) : nanHead ('N' :: x) = anHead x := by
  cases x with
  | nil => simp [nanHead, anHead]
  | cons a r =>
    cases r with
    | nil => simp [nanHead, anHead]
    | cons m r2 => simp [nanHead, anHead]

theorem nanHead_replaceNaN (l : List Char) (h : nanHead (skipWs l) = false) :
    nanHead (skipWs (replaceNaN l)) = false := by
  induction l with
  | nil => rw [replaceNaN_nil]; simpa using h
  | cons c rest ih =>
    rw [replaceNaN_cons]
    rcases htm : tryMatchNaN (c :: rest) with _ | suf
    · by_cases hws : isWsChar c
      · have hsk : skipWs (c :: rest) = skipWs rest := by simp [skipWs, hws]
        have hsk2 : skipWs (c :: replaceNaN rest) = skipWs (replaceNaN rest) := by
          simp [skipWs, hws]
        rw [hsk] at h
        rw [hsk2]
        exact ih h
      · have hsk : skipWs (c :: rest) = c :: rest := by simp [skipWs, hws]
        have hsk2 : skipWs (c :: replaceNaN rest) = c :: replaceNaN rest := by
          simp [skipWs, hws]
        rw [hsk] at h
        rw [hsk2]
        by_cases hcN : c = 'N'
        · subst hcN
          rw [nanHead_cons_N] at h ⊢
          exact anHead_replaceNaN rest h
        · cases hrr : replaceNaN rest with
          | nil => simp [nanHead]
          | cons d r2 =>
            cases r2 with
            | nil => simp [nanHead]
            | cons e r3 => simp [nanHead, hcN]
    · have hsk : skipWs (':' :: ' ' :: 'n' :: 'u' :: 'l' :: 'l' :: replaceNaN suf) =
          ':' :: ' ' :: 'n' :: 'u' :: 'l' :: 'l' :: replaceNaN suf := by
        simp [skipWs, isWsChar]
      rw [hsk]
      simp [nanHead]

theorem replaceNaN_no_pattern_aux :
    ∀ n : Nat, ∀ l : List Char, l.length ≤ n →
      hasNaNPattern (replaceNaN l) = false := by
  intro n
  induction n with
  | zero =>
    intro l h
    have hl : l = [] := List.length_eq_zero.mp (Nat.le_zero.mp h)
    subst hl
    rw [replaceNaN_nil]
    rfl
  | succ n ih =>
    intro l h
    cases l with
    | nil => rw [replaceNaN_nil]; rfl
    | cons c rest =>
      rw [replaceNaN_cons]
      rcases htm : tryMatchNaN (c :: rest) with _ | suf
      · simp only [htm]
        have hrest : hasNaNPattern (replaceNaN rest) = false := by
          refine ih rest ?_
          simp only [List.length_cons] at h
          omega
        have hnone : tryMatchNaN (c :: replaceNaN rest) = none := by
          by_cases hc : c = ':'
          · subst hc
            have h1 : nanHead (skipWs rest) = false :=
              (tryMatchNaN_colon_eq_none rest).mp htm
            exact (tryMatchNaN_colon_eq_none _).mpr (nanHead_replaceNaN rest h1)
          · exact tryMatchNaN_not_colon c _ hc
        simp [hasNaNPattern, hnone, hrest]
      · simp only [htm]
        have hsuf : hasNaNPattern (replaceNaN suf) = false := by
          have hs := tryMatchNaN_length _ _ htm
          simp only [List.length_cons] at hs h
          exact ih suf (by omega)
        simp [hasNaNPattern, hsuf, tryMatchNaN, skipWs, isWsChar]

/-- C4 (amended).  The sanitizer applied by every output path of
`cryptoRoutes.js` removes every colon-prefixed `NaN` value: no position of
the sanitized report text still matches `:\s*NaN`, so no `NaN` numeric value
survives to the parse step. -/
theorem C4_sanitizer_leaves_no_nan (l : List Char) :
    hasNaNPattern (replaceNaN l) = false :=
  replaceNaN_no_pattern_aux l.length l (le_refl _)

/-- `true` iff `pat` occurs at the head of the list. -/
def beginsWith : List Char → List Char → Bool
  | [], _ => true
  | _ :: _, [] => false
  | p :: ps, c :: cs => p = c && beginsWith ps cs

/-- `true` iff `pat` occurs contiguously anywhere in the list. -/
def containsSeq (pat : List Char) : List Char → Bool
  | [] => pat.isEmpty
  | c :: rest => beginsWith pat (c :: rest) || containsSeq pat rest

/-- A JSON value position holding an IEEE infinity, as Python's `json.dumps`
serializes it: the fragment `: Infinity`. -/
def infinityFragment : List Char :=
  [':', ' ', 'I', 'n', 'f', 'i', 'n', 'i', 't', 'y']

/-- C4 is refuted as stated: an infinite numeric value is NOT converted to
the null sentinel — the sanitizer `replace(/:\s*NaN/g, ': null')` passes the
fragment `: Infinity` through unchanged, leaving a raw non-finite token in
the text (the subsequent `JSON.parse` then fails; the value is never turned
into `null`). -/
theorem C4_infinity_not_converted :
    replaceNaN infinityFragment = infinityFragment ∧
      containsSeq ['I', 'n', 'f', 'i', 'n', 'i', 't', 'y']
        (replaceNaN infinityFragment) = true ∧
      containsSeq ['n', 'u', 'l', 'l'] (replaceNaN infinityFragment) = false := by
  refine ⟨?_, ?_, ?_⟩ <;> decide

theorem replaceNaN_id_of_no_pattern :
    ∀ l : List Char, hasNaNPattern l = false → replaceNaN l = l := by
  intro l
  induction l with
  | nil => intro _; exact replaceNaN_nil
  | cons c rest ih =>
    intro h
    simp only [hasNaNPattern, Bool.or_eq_false_iff] at h
    have htm : tryMatchNaN (c :: rest) = none := by
      rcases hx : tryMatchNaN (c :: rest) with _ | v
      · rfl
      · rw [hx] at h
        simp at h
    rw [replaceNaN_cons]
    simp only [htm]
    rw [ih h.2]

/-- The fragment `: -1.0` — the serialized form of the report's
`Constrained_R2` value. -/
def constrainedR2Fragment : List Char :=
  [':', ' ', '-', '1', '.', '0']

/-- C7.  The assembled report retains negative R² values unclamped: its
`model_performance` holds `Constrained_R2 = -1.0` and `Ensemble_R2 = -1.0`,
both strictly negative, and the only transformation the route applies to the
report text on the way out (the `NaN` sanitizer) passes the serialized
negative value through unchanged. -/
theorem C7_negative_r2_preserved :
    ("Constrained_R2", (-1 : ℚ)) ∈ reportModelPerformance ∧
      ("Ensemble_R2", (-1 : ℚ)) ∈ reportModelPerformance ∧
      (-1 : ℚ) < 0 ∧
      replaceNaN constrainedR2Fragment = constrainedR2Fragment := by
  refine ⟨?_, ?_, by norm_num, ?_⟩
  · norm_num [reportModelPerformance]
  · norm_num [reportModelPerformance]
  · decide

/-- A monthly percent-change series: symbol plus ordered
(period-end date, percent change) points; dates are encoded as naturals. -/
structure SeriesQ where
  symbol : String
  points : List (Nat × ℚ)
  deriving DecidableEq, Repr

/-- The dates carried by a series. -/
def seriesDates (s : SeriesQ) : List Nat := s.points.map Prod.fst

/-- Whether a series has an observation at date `d`. -/
def hasDate (s : SeriesQ) (d : Nat) : Bool := (seriesDates s).contains d

/-- Maximum date of a list of dates (`none` on the empty list). -/
def maxDate (l : List Nat) : Option Nat :=
  match l with
  | [] => none
  | d :: ds => some (List.foldr max d ds)

theorem foldr_max_mem (d : Nat) (ds : List Nat) :
    List.foldr max d ds ∈ d :: ds := by
  induction ds generalizing d with
  | nil => exact List.mem_cons_self _ _
  | cons e es ih =>
    simp only [List.foldr_cons]
    rcases max_cases e (List.foldr max d es) with ⟨he, _⟩ | ⟨he, _⟩
    · rw [he]
      exact List.mem_cons_of_mem _ (List.mem_cons_self _ _)
    · rw [he]
      rcases List.mem_cons.mp (ih d) with hd | hmem
      · rw [hd]; exact List.mem_cons_self _ _
      · exact List.mem_cons_of_mem _ (List.mem_cons_of_mem _ hmem)

theorem foldr_max_ge (d : Nat) (ds : List Nat) :
    ∀ x ∈ d :: ds, x ≤ List.foldr max d ds := by
  induction ds generalizing d with
  | nil =>
    intro x hx
    rcases List.mem_cons.mp hx with rfl | hmem
    · exact le_refl x
    · cases hmem
  | cons e es ih =>
    intro x hx
    simp only [List.foldr_cons]
    rcases List.mem_cons.mp hx with rfl | hmem
    · exact le_trans (ih _ _ (List.mem_cons_self _ _)) (le_max_right e _)
    · rcases List.mem_cons.mp hmem with rfl | hmem2
      · exact le_max_left x _
      · exact le_trans (ih d x (List.mem_cons_of_mem _ hmem2)) (le_max_right e _)

theorem maxDate_le (l : List Nat) (m : Nat) (h : maxDate l = some m) :
    ∀ x ∈ l, x ≤ m := by
  cases l with
  | nil => simp [maxDate] at h
  | cons d ds =>
    simp only [maxDate, Option.some.injEq] at h
    subst h
    exact foldr_max_ge d ds

theorem maxDate_mem (l : List Nat) (m : Nat) (h : maxDate l = some m) :
    m ∈ l := by
  cases l with
  | nil => simp [maxDate] at h
  | cons d ds =>
    simp only [maxDate, Option.some.injEq] at h
    subst h
    exact foldr_max_mem d ds

/-- Modelled from the spec (§4.1 DataPreparer; the estimator script
`crypto_weight_estimator.py` is not in the repository snapshot): the dates
present in all selected asset series and in the fund. -/
def commonDates (fund : SeriesQ) (assets : List SeriesQ) : List Nat :=
  (seriesDates fund).filter (fun d => assets.all (fun a => hasDate a d))

/-- Modelled from the spec: fund dates lacking data in some selected asset
series. -/
def missingDates (fund : SeriesQ) (assets : List SeriesQ) : List Nat :=
  (seriesDates fund).filter (fun d => ! assets.all (fun a => hasDate a d))

/-- The structured data-alignment error payload demanded by the spec:
the missing dates, the latest fully-covered date, and the fund's maximum
date. -/
structure DataAlignmentError where
  missing_dates : List Nat
  latest_complete_date : Option Nat
  fund_max_date : Nat
  deriving DecidableEq, Repr

/-- Typed pipeline failures: the alignment kind is structurally distinct
from the generic kinds. -/
inductive PrepError where
  | alignment (e : DataAlignmentError)
  | insufficientData (needed : Nat)
  | generic (msg : String)
  deriving DecidableEq, Repr

/-- Modelled from the spec (§4.1 DataPreparer, absent
`crypto_weight_estimator.py`): intersect the dates of all selected series
with the fund's; if the fund has trailing dates (later than the latest
fully-covered date) absent from some asset series, fail with a structured
`DataAlignmentError` naming the missing dates, the latest fully-covered
date, and the fund's maximum date. -/
def alignData (fund : SeriesQ) (assets : List SeriesQ) :
    Except PrepError (List Nat) :=
  match maxDate (seriesDates fund) with
  | none => .error (.insufficientData 1)
  | some fmax =>
    let common := commonDates fund assets
    let missing := missingDates fund assets
    let trailingMissing :=
      match maxDate common with
      | some lc => missing.filter (fun d => lc < d)
      | none => missing
    if trailingMissing.isEmpty then .ok common
    else .error (.alignment
      { missing_dates := trailingMissing,
        latest_complete_date := maxDate common,
        fund_max_date := fmax })

/-- C3.  Modelled from the spec (the DataPreparer lives in the absent
`crypto_weight_estimator.py`): when the fund's latest date has no matching
data in some selected asset series, alignment fails with the structured
`alignment` error kind — not a generic failure — whose payload contains
that date among `missing_dates` and carries the latest fully-covered date
and the fund's maximum date. -/
theorem C3_alignment_error_names_latest_date
    (fund : SeriesQ) (assets : List SeriesQ) (a : SeriesQ) (fmax : Nat)
    (hmax : maxDate (seriesDates fund) = some fmax)
    (ha : a ∈ assets) (hmiss : hasDate a fmax = false) :
    ∃ e : DataAlignmentError,
      alignData fund assets = .error (.alignment e) ∧
        fmax ∈ e.missing_dates ∧
        e.fund_max_date = fmax ∧
        e.latest_complete_date = maxDate (commonDates fund assets) := by
  have hfmem : fmax ∈ seriesDates fund := maxDate_mem _ _ hmax
  have hallF : assets.all (fun x => hasDate x fmax) = false := by
    rcases hb : assets.all (fun x => hasDate x fmax) with _ | _
    · rfl
    · have := List.all_eq_true.mp hb a ha
      rw [hmiss] at this
      cases this
  have hfmiss : fmax ∈ missingDates fund assets := by
    refine List.mem_filter.mpr ⟨hfmem, ?_⟩
    simp [hallF]
  have htrail : ∀ lc, maxDate (commonDates fund assets) = some lc → lc < fmax := by
    intro lc hlc
    have hlcmem : lc ∈ commonDates fund assets := maxDate_mem _ _ hlc
    have hlcfund : lc ∈ seriesDates fund := (List.mem_filter.mp hlcmem).1
    have hle : lc ≤ fmax := maxDate_le _ _ hmax lc hlcfund
    have hne : lc ≠ fmax := by
      intro hcontra
      have hpred := (List.mem_filter.mp hlcmem).2
      rw [hcontra, hallF] at hpred
      cases hpred
    exact lt_of_le_of_ne hle hne
  rcases hlc : maxDate (commonDates fund assets) with _ | lc
  · refine ⟨{ missing_dates := missingDates fund assets,
              latest_complete_date := none, fund_max_date := fmax }, ?_, hfmiss, rfl, rfl⟩
    have hne : (missingDates fund assets).isEmpty = false := by
      cases hm : missingDates fund assets with
      | nil => rw [hm] at hfmiss; cases hfmiss
      | cons x xs => rfl
    simp only [alignData, hmax, hlc, hne]
    rfl
  · have hlt : lc < fmax := htrail lc hlc
    have hmem2 : fmax ∈ (missingDates fund assets).filter (fun d => decide (lc < d)) :=
      List.mem_filter.mpr ⟨hfmiss, by simpa using hlt⟩
    refine ⟨{ missing_dates := (missingDates fund assets).filter (fun d => decide (lc < d)),
              latest_complete_date := some lc, fund_max_date := fmax }, ?_, hmem2, rfl, rfl⟩
    have hne : ((missingDates fund assets).filter (fun d => decide (lc < d))).isEmpty = false := by
      cases hm : (missingDates fund assets).filter (fun d => decide (lc < d)) with
      | nil => rw [hm] at hmem2; cases hmem2
      | cons x xs => rfl
    simp only [alignData, hmax, hlc, hne]
    rfl

/-- Example fund series: dates 1, 2, 3. -/
def exampleFund : SeriesQ := { symbol := "FUND", points := [(1, 0), (2, 0), (3, 0)] }

/-- Example asset series missing the fund's latest date 3. -/
def exampleAsset : SeriesQ := { symbol := "BTC", points := [(1, 0), (2, 0)] }

/-- Concrete instantiation of `C3_alignment_error_names_latest_date`: the
fund's latest date 3 is absent from the only selected asset series. -/
theorem C3_alignment_error_names_latest_date_witness :
    maxDate (seriesDates exampleFund) = some 3 ∧
      exampleAsset ∈ [exampleAsset] ∧
      hasDate exampleAsset 3 = false ∧
      ∃ e : DataAlignmentError,
        alignData exampleFund [exampleAsset] = .error (.alignment e) ∧
          3 ∈ e.missing_dates ∧
          e.fund_max_date = 3 ∧
          e.latest_complete_date = maxDate (commonDates exampleFund [exampleAsset]) :=
  ⟨by decide, List.mem_cons_self _ _, by decide,
    C3_alignment_error_names_latest_date exampleFund [exampleAsset] exampleAsset 3
      (by decide) (List.mem_cons_self _ _) (by decide)⟩

/-- The sequential bootstrap loop: iterate `f` over the resample indices
`0, …, B-1` in order. -/
def seqRun {α : Type} (f : Nat → α) (B : Nat) : List α :=
  (List.range B).map f

/-- A parallel execution of the `B` bootstrap iterations: the iterations are
computed in an arbitrary completion order `order` (each producing its
indexed result), and the result vector is assembled by index afterwards. -/
def parRun {α : Type} (f : Nat → α) (B : Nat) (order : List Nat) :
    List (Option α) :=
  (List.range B).map (fun i => (order.map (fun j => (j, f j))).lookup i)

/-- Modelled from the spec (§4.5/§5, absent `crypto_weight_estimator.py`):
one bootstrap run — every resample `i` is a pure function `iter seed i` of
the seed, the (fixed) input data and its own index, with no shared mutable
state between iterations; `order` is the scheduler-chosen completion
order. -/
def bootstrapRun {α : Type} (iter : Nat → Nat → α) (seed B : Nat)
    (order : List Nat) : List (Option α) :=
  parRun (iter seed) B order

theorem lookup_map_pair {α : Type} (f : Nat → α) (order : List Nat) (i : Nat)
    (h : i ∈ order) :
    (order.map (fun j => (j, f j))).lookup i = some (f i) := by
  induction order with
  | nil => cases h
  | cons j os ih =>
    simp only [List.map_cons, List.lookup]
    rcases hij : (i == j) with _ | _
    · have hne : i ≠ j := by
        intro hcontra
        subst hcontra
        simp at hij
      rcases List.mem_cons.mp h with rfl | hmem
      · exact absurd rfl hne
      · simp only [hij]
        exact ih hmem
    · have hij2 : i = j := by simpa using hij
      subst hij2
      simp [hij]

theorem parRun_eq_seqRun {α : Type} (f : Nat → α) (B : Nat) (order : List Nat)
    (h : ∀ i, i < B → i ∈ order) :
    parRun f B order = (seqRun f B).map some := by
  simp only [parRun, seqRun, List.map_map]
  refine List.map_congr_left ?_
  intro i hi
  exact lookup_map_pair f order i (h i (List.mem_range.mp hi))

/-- C5.  Modelled from the spec (the bootstrap engine lives in the absent
`crypto_weight_estimator.py`; §5: iterations are pure in seed, data and
index, with no shared state): for identical input and identical seed, the
assembled bootstrap results — hence the ensemble weights derived from them —
are identical for any two completion orders covering all `B` iterations, and
equal to the sequential run's results. -/
theorem C5_bootstrap_schedule_independent {α : Type} (iter : Nat → Nat → α)
    (seed B : Nat) (o1 o2 : List Nat)
    (h1 : ∀ i, i < B → i ∈ o1) (h2 : ∀ i, i < B → i ∈ o2) :
    bootstrapRun iter seed B o1 = bootstrapRun iter seed B o2 ∧
      bootstrapRun iter seed B o1 = (seqRun (iter seed) B).map some := by
  have e1 := parRun_eq_seqRun (iter seed) B o1 h1
  have e2 := parRun_eq_seqRun (iter seed) B o2 h2
  exact ⟨e1.trans e2.symm, e1⟩

/-- Concrete instantiation of `C5_bootstrap_schedule_independent` with
`B = 3` iterations, one out-of-order schedule and the in-order schedule. -/
theorem C5_bootstrap_schedule_independent_witness :
    (∀ i, i < 3 → i ∈ [2, 0, 1]) ∧ (∀ i, i < 3 → i ∈ [0, 1, 2]) ∧
      (bootstrapRun (fun s i => s + i) 7 3 [2, 0, 1] =
          bootstrapRun (fun s i => s + i) 7 3 [0, 1, 2] ∧
        bootstrapRun (fun s i => s + i) 7 3 [2, 0, 1] =
          (seqRun ((fun s i => s + i) 7) 3).map some) :=
  ⟨by decide, by decide,
    C5_bootstrap_schedule_independent (fun s i => s + i) 7 3 [2, 0, 1] [0, 1, 2]
      (by decide) (by decide)⟩

/-- `calculateMoMChange` from `backend/scripts/addMoMChange.js` (lines 12-15)
and `backend/scripts/generateEOMData.js` (lines 40-43):
`if (!previousPrice) return null; return ((current - previous) / previous) * 100`
— a zero (falsy) previous price yields `null`. -/
def calculateMoMChange (currentPrice previousPrice : ℚ) : Option ℚ :=
  if previousPrice = 0 then none
  else some ((currentPrice - previousPrice) / previousPrice * 100)

/-- The month-over-month pass of `generateEOMData.js` lines 160-173:
`eomData.map((item, index) => ...)` — index 0 carries no MoM value, index
`i > 0` carries `calculateMoMChange(close_i, close_{i-1})`.  Entries are
(date, close) pairs; dates are encoded as naturals. -/
def attachMoM (eom : List (Nat × ℚ)) : List (Nat × ℚ × Option ℚ) :=
  eom.enum.map (fun p =>
    (p.2.1, p.2.2,
      if 0 < p.1 then
        match eom[p.1 - 1]? with
        | some prev => calculateMoMChange p.2.2 prev.2
        | none => none
      else none))

/-- C9.  For a chronologically sorted end-of-month series, the MoM value
attached to observation `i > 0` is `((close_i - close_{i-1}) / close_{i-1}) * 100`
(whenever the previous close is nonzero, the only case in which the formula
is defined), and the first observation carries no MoM value. -/
theorem C9_mom_formula (eom : List (Nat × ℚ))
    (hsorted : List.Chain' (fun p q => p.1 < q.1) eom) (d : Nat) (c : ℚ) :
    (∀ i dp cp, 0 < i → eom[i]? = some (d, c) → eom[i - 1]? = some (dp, cp) →
        cp ≠ 0 →
        (attachMoM eom)[i]? = some (d, c, some ((c - cp) / cp * 100))) ∧
      (eom[0]? = some (d, c) → (attachMoM eom)[0]? = some (d, c, none)) := by
  constructor
  · intro i dp cp hi h hp hcp
    simp only [attachMoM, List.getElem?_map, List.getElem?_enum, h,
      Option.map_some']
    simp only [hi, if_pos, hp]
    simp [calculateMoMChange, hcp]
  · intro h
    simp [attachMoM, List.getElem?_map, List.getElem?_enum, h]

/-- Concrete instantiation of `C9_mom_formula` on the two-point series
`[(1, 100), (2, 110)]`. -/
theorem C9_mom_formula_witness :
    List.Chain' (fun p q : Nat × ℚ => p.1 < q.1) [(1, 100), (2, 110)] ∧
      (0 : Nat) < 1 ∧
      ([((1 : Nat), (100 : ℚ)), (2, 110)][1]? = some (2, 110)) ∧
      ([((1 : Nat), (100 : ℚ)), (2, 110)][0]? = some (1, 100)) ∧
      (100 : ℚ) ≠ 0 ∧
      (attachMoM [(1, 100), (2, 110)])[1]? =
        some (2, 110, some ((110 - 100) / 100 * 100)) ∧
      (attachMoM [(1, 100), (2, 110)])[0]? = some (1, 100, none) :=
  ⟨by simp [List.chain'_cons], by decide, by decide, by decide, by decide,
    (C9_mom_formula [(1, 100), (2, 110)] (by simp [List.chain'_cons]) 2 110).1 1 1 100
      (by decide) (by decide) (by decide) (by decide),
    (C9_mom_formula [(1, 100), (2, 110)] (by simp [List.chain'_cons]) 1 100).2
      (by decide)⟩

/-- The parsed analysis report as the routes see it; only its
`ensemble_weights` keys drive the routes' control flow. -/
structure ReportData where
  ensemble_weights : List (String × EnsembleWeight)
  deriving DecidableEq, Repr

/-- An Express JSON response: HTTP status plus the payload fields the
routes actually set. -/
structure ApiResponse where
  status : Nat
  success : Bool
  message : Option String
  error : Option String
  data : Option ReportData
  deriving DecidableEq, Repr

/-- The `GET /api/predictions/report` handler of
`backend/routes/cryptoRoutes.js` lines 321-361: a missing report file yields
a 404 not-found response; otherwise the sanitized file content is parsed
(`parseResult` abstracts `JSON.parse`), yielding 200 with the data or 500
with the parse error. -/
def getReport (reportExists : Bool) (parseResult : Except String ReportData) :
    ApiResponse :=
  if reportExists = false then
    { status := 404, success := false,
      message := some "No analysis report found. Please run the analysis first.",
      error := none, data := none }
  else
    match parseResult with
    | .ok d =>
      { status := 200, success := true, message := none, error := none,
        data := some d }
    | .error m =>
      { status := 500, success := false,
        message := some "Error parsing report data. The report file may be corrupted.",
        error := some m, data := none }

/-- C8.  Querying the report when none has ever been produced yields the
distinct 404 not-found response — carrying no error payload — and that
response differs from every response the handler can produce when a report
file exists (success or failed-run parse error). -/
theorem C8_no_report_state_distinct (p q : Except String ReportData) :
    (getReport false p).status = 404 ∧
      (getReport false p).success = false ∧
      (getReport false p).error = none ∧
      getReport true q ≠ getReport false p := by
  refine ⟨rfl, rfl, rfl, ?_⟩
  cases q with
  | ok d =>
    intro hcontra
    have hst := congrArg ApiResponse.status hcontra
    simp [getReport] at hst
  | error m =>
    intro hcontra
    have hst := congrArg ApiResponse.status hcontra
    simp [getReport] at hst

/-- Lexicographic (code-point) order on character lists — JavaScript's
default `Array.prototype.sort` comparison for strings. -/
def lexLt : List Char → List Char → Bool
  | [], [] => false
  | [], _ :: _ => true
  | _ :: _, [] => false
  | a :: as, b :: bs => if a < b then true else if b < a then false else lexLt as bs

/-- Insert into a lexicographically sorted list of keys. -/
def insertKey (s : List Char) : List (List Char) → List (List Char)
  | [] => [s]
  | t :: ts => if lexLt t s then t :: insertKey s ts else s :: t :: ts

/-- Sort keys ascending — `Object.keys(...).sort()`. -/
def sortKeys : List (List Char) → List (List Char)
  | [] => []
  | s :: ss => insertKey s (sortKeys ss)

/-- `Array.prototype.join(',')`. -/
def joinComma : List (List Char) → List Char
  | [] => []
  | [s] => s
  | s :: rest => s ++ ',' :: joinComma rest

/-- `(req.query.assets || '').split(',')`: split on commas, keeping empty
pieces. -/
def splitCommaAux (cur : List Char) : List Char → List (List Char)
  | [] => [cur.reverse]
  | c :: rest =>
    if c = ',' then cur.reverse :: splitCommaAux [] rest
    else splitCommaAux (c :: cur) rest

/-- `(req.query.assets || '').split(',').filter(Boolean)` — empty strings are
falsy and dropped. -/
def splitAssets (q : List Char) : List (List Char) :=
  (splitCommaAux [] q).filter (fun s => ! s.isEmpty)

/-- `Object.keys(reportData.ensemble_weights).sort().join(',')`
(`cryptoRoutes.js` line 106). -/
def reportAssetsKey (d : ReportData) : List Char :=
  joinComma (sortKeys (d.ensemble_weights.map (fun p => p.1.data)))

/-- `(req.query.assets || '').split(',').filter(Boolean).sort().join(',')`
(`cryptoRoutes.js` line 107). -/
def requestedAssetsKey (q : List Char) : List Char :=
  joinComma (sortKeys (splitAssets q))

/-- Outcome of the weight-analysis endpoint's pre-run phase
(`cryptoRoutes.js` lines 75-129): a 404 for a missing script, the cached
report, or proceeding to a fresh analysis run. -/
inductive WADecision where
  | scriptMissing
  | cached (d : ReportData)
  | fresh
  deriving DecidableEq, Repr

/-- The cache-or-fresh decision logic of `GET /api/predictions/weight-analysis`
(`cryptoRoutes.js` lines 75-129): the script-existence check runs first; a
report file younger than 60 minutes is read, NaN-sanitized and parsed
(`parse` abstracts `JSON.parse`); the cache is served only when the sorted
comma-joined report keys equal the sorted comma-joined requested symbols;
every other path falls through to a fresh run. -/
def weightAnalysisDecision (scriptExists reportExists : Bool) (ageMinutes : ℚ)
    (content : List Char) (parse : List Char → Option ReportData)
    (assetsQuery : List Char) : WADecision :=
  if scriptExists = false then .scriptMissing
  else if reportExists && decide (ageMinutes < 60) then
    match parse (replaceNaN content) with
    | some d =>
      if reportAssetsKey d = requestedAssetsKey assetsQuery then .cached d
      else .fresh
    | none => .fresh
  else .fresh

/-- A one-asset parsed report, used as a concrete parse result. -/
def demoReport : ReportData :=
  { ensemble_weights := [("BTC", { Weight := 1, Lower_CI := 0, Upper_CI := 1 })] }

/-- C10 is refuted as stated: with the script present, a fresh (age 0)
report file that parses to `demoReport` (keys `BTC`), and the request
`assets=BTC,BTC`, the requested symbol SET equals the report's key set —
every condition of the claim holds — yet the endpoint does not serve the
cache: the comparison joins sorted symbol LISTS, so the duplicate defeats
it and a fresh analysis is launched. -/
theorem C10_duplicate_symbols_defeat_cache :
    ((splitAssets ("BTC,BTC".data)).toFinset =
        ((demoReport.ensemble_weights.map (fun p => p.1.data)).toFinset)) ∧
      ((0 : ℚ) < 60) ∧
      ((fun _ : List Char => some demoReport) (replaceNaN []) = some demoReport) ∧
      weightAnalysisDecision true true 0 [] (fun _ => some demoReport)
        ("BTC,BTC".data) = WADecision.fresh := by
  refine ⟨by decide, by norm_num, rfl, ?_⟩
  decide

/-- C10 (amended).  With the analysis script present, the endpoint serves
the cached report exactly when the report file exists, is younger than 60
minutes, parses after NaN sanitization, and the sorted comma-join of its
`ensemble_weights` keys equals the sorted comma-join of the requested
symbols (split on commas, empty entries dropped — duplicates significant);
in every other case with the script present a fresh analysis is launched,
and with the script missing the endpoint reports it missing instead. -/
theorem C10_cache_decision_characterization (reportExists : Bool) (age : ℚ)
    (content : List Char) (parse : List Char → Option ReportData)
    (q : List Char) :
    ((∃ d, weightAnalysisDecision true reportExists age content parse q =
          WADecision.cached d) ↔
        (reportExists = true ∧ age < 60 ∧
          ∃ d, parse (replaceNaN content) = some d ∧
            reportAssetsKey d = requestedAssetsKey q)) ∧
      (weightAnalysisDecision true reportExists age content parse q =
          WADecision.fresh ∨
        ∃ d, weightAnalysisDecision true reportExists age content parse q =
          WADecision.cached d) ∧
      weightAnalysisDecision false reportExists age content parse q =
        WADecision.scriptMissing := by
  refine ⟨?_, ?_, rfl⟩
  · constructor
    · rintro ⟨d, hd⟩
      simp only [weightAnalysisDecision] at hd
      rw [if_neg (by simp)] at hd
      by_cases hre : reportExists && decide (age < 60)
      · rw [if_pos hre] at hd
        rcases hp : parse (replaceNaN content) with _ | d2
        · rw [hp] at hd
          cases hd
        · rw [hp] at hd
          by_cases hk : reportAssetsKey d2 = requestedAssetsKey q
          · simp only [hk, if_pos] at hd
            have hd2 : d2 = d := by
              cases hd
              rfl
            subst hd2
            simp only [Bool.and_eq_true, decide_eq_true_eq] at hre
            exact ⟨hre.1, hre.2, d2, rfl, hk⟩
          · simp only [if_neg hk] at hd
            cases hd
      · rw [if_neg hre] at hd
        cases hd
    · rintro ⟨hre, hage, d, hp, hk⟩
      refine ⟨d, ?_⟩
      simp only [weightAnalysisDecision]
      rw [if_neg (by simp), if_pos (by simp [hre, hage]), hp]
      simp [hk]
  · simp only [weightAnalysisDecision]
    rw [if_neg (by simp)]
    by_cases hre : reportExists && decide (age < 60)
    · rw [if_pos hre]
      rcases hp : parse (replaceNaN content) with _ | d
      · exact Or.inl rfl
      · by_cases hk : reportAssetsKey d = requestedAssetsKey q
        · exact Or.inr ⟨d, by simp [hk]⟩
        · exact Or.inl (by simp [hk])
    · rw [if_neg hre]
      exact Or.inl rfl

end PccEst
